import Mathlib

/-!
Shallow embedding of `netmerge.go` (package `netmerge`): CIDR parsing,
closest-pair selection, and supernet merging over 32-bit IPv4 addresses.
Machine integers are modelled as `Nat` with explicit `% 2^32` where Go
overflow semantics matter.  Strings are modelled as Lean `String`s and the
relevant parts of Go's `net.ParseCIDR` (including `parseIPv4`, `parseIPv6`,
`dtoi`, `xtoi`, `To4`) are embedded over `List Char`.
-/

namespace Netmerge

/-- Errors returned by the Go code: `net.ParseCIDR`'s parse error (carrying
the offending text) and `closestVectors`'s insufficient-vectors error. -/
inductive GoError where
  | parseError (text : String)
  | insufficientVectors
deriving DecidableEq, Repr

/-- Outcome of running a Go function: a normal return, or a runtime panic
(here: `binary.BigEndian.Uint32` applied to a nil slice). -/
inductive GoOutcome (α : Type) where
  | ret (a : α)
  | panic
deriving DecidableEq, Repr

deriving instance DecidableEq for Except

/-- Model of the Go struct `IPv4Vector`.  `FirstIP`/`LastIP` are the uint32
fields.  The Go struct also stores `CIDR net.IPNet`; the only part of it the
program ever reads is `CIDR.Mask.Size()`'s leading-ones count, kept here as
`maskOnes`. -/
structure IPv4Vector where
  FirstIP : Nat
  LastIP : Nat
  maskOnes : Nat
deriving DecidableEq, Repr

/-- Go's zero value for `IPv4Vector` (used for the untouched `closest1`,
`closest2` locals before any pair is examined). -/
instance : Inhabited IPv4Vector := ⟨⟨0, 0, 0⟩⟩

/-! ### Character-level helpers for the Go `net` parser -/

/-- Decimal digit test, as in Go's `dtoi` (`'0' <= c && c <= '9'`). -/
def isDigitCh (c : Char) : Bool := '0' ≤ c && c ≤ '9'

/-- Split a character list at every occurrence of `c`; always returns at
least one (possibly empty) field. -/
def splitOnChar (c : Char) : List Char → List (List Char)
  | [] => [[]]
  | x :: xs =>
    if x = c then [] :: splitOnChar c xs
    else
      match splitOnChar c xs with
      | r :: rs => (x :: r) :: rs
      | [] => [[x]]

/-- Split at the first occurrence of `c` (Go: `byteIndex(s, c)` then
`s[:i], s[i+1:]`); `none` when `c` does not occur. -/
def breakAtFirst (c : Char) : List Char → Option (List Char × List Char)
  | [] => none
  | x :: xs =>
    if x = c then some ([], xs)
    else
      match breakAtFirst c xs with
      | none => none
      | some (pre, post) => some (x :: pre, post)

/-- Index of the last occurrence of `c` (Go: `byteLastIndex`). -/
def lastIdxOf (c : Char) : List Char → Option Nat
  | [] => none
  | x :: xs =>
    match lastIdxOf c xs with
    | some i => some (i + 1)
    | none => if x = c then some 0 else none

/-- Numeric value of a non-empty all-digit field, as Go's `dtoi` with the
caller's full-consumption check (`i == len(s)`).  Leading zeros are accepted
here; Go's `dtoi` itself never rejects them.  Overflow past `dtoi`'s `big`
cutoff makes Go return `ok = false`; every caller then fails, which
coincides with the range checks the callers perform on the exact value. -/
def parseDecFull (cs : List Char) : Option Nat :=
  if cs.isEmpty then none
  else if cs.all isDigitCh then
    some (cs.foldl (fun n c => n * 10 + (c.toNat - 48)) 0)
  else none

/-- One dotted-quad field of Go's `parseIPv4`: decimal, value at most 255,
and (since Go 1.17) no leading zeros. -/
def decOctet (cs : List Char) : Option Nat :=
  match parseDecFull cs with
  | none => none
  | some n =>
    if 255 < n then none
    else if 1 < cs.length && cs.head? = some '0' then none
    else some n

/-- Go `parseIPv4`: four dot-separated decimal octets; result is the
address as a big-endian 32-bit value (`binary.BigEndian.Uint32` of the four
bytes). -/
def parseIPv4 (cs : List Char) : Option Nat :=
  match splitOnChar '.' cs with
  | [a, b, c, d] =>
    match decOctet a, decOctet b, decOctet c, decOctet d with
    | some va, some vb, some vc, some vd =>
      some (va * 16777216 + vb * 65536 + vc * 256 + vd)
    | _, _, _, _ => none
  | _ => none

/-- Hex digit value, as in Go's `xtoi`. -/
def hexVal (c : Char) : Option Nat :=
  if '0' ≤ c && c ≤ '9' then some (c.toNat - 48)
  else if 'a' ≤ c && c ≤ 'f' then some (c.toNat - 97 + 10)
  else if 'A' ≤ c && c ≤ 'F' then some (c.toNat - 65 + 10)
  else none

/-- Loop of Go's `xtoi`: accumulate hex digits, failing once the
accumulator reaches `big = 0xFFFFFF` (Go then returns `ok = false`). -/
def xtoiCore : List Char → Nat → Option (Nat × List Char)
  | [], n => some (n, [])
  | c :: cs, n =>
    match hexVal c with
    | none => some (n, c :: cs)
    | some v =>
      if 16777215 ≤ n * 16 + v then none
      else xtoiCore cs (n * 16 + v)

/-- Go `xtoi`: parse a non-empty maximal hex-digit prefix; returns the
value and the unconsumed remainder. -/
def xtoi (cs : List Char) : Option (Nat × List Char) :=
  match cs with
  | [] => none
  | c :: _ =>
    match hexVal c with
    | none => none
    | some _ => xtoiCore cs 0

/-- Main loop of Go `parseIPv6`.  `acc` is the byte prefix written so far
(Go's `ip[0:i]`), `ell` the ellipsis position.  Returns the state at loop
exit or `none` on a parse failure.  The loop body runs at most 8 times
(each pass appends two bytes and the guard stops at 16), so fuel 8 is
exact; the fuel-0 branch is unreachable from `parseIPv6`. -/
def parseIPv6Loop : Nat → List Nat → Option Nat → List Char →
    Option (List Nat × Option Nat × List Char)
  | fuel, acc, ell, s =>
    if 16 ≤ acc.length then some (acc, ell, s)
    else
      match fuel with
      | 0 => none
      | fuel' + 1 =>
        match xtoi s with
        | none => none
        | some (n, rest) =>
          if 65535 < n then none
          else if rest.head? = some '.' then
            -- trailing dotted-quad (Go: `s[c] == '.'`)
            if ell = none && acc.length ≠ 12 then none
            else if 16 < acc.length + 4 then none
            else
              match parseIPv4 s with
              | none => none
              | some a =>
                some (acc ++ [a >>> 24 % 256, a >>> 16 % 256,
                              a >>> 8 % 256, a % 256], ell, [])
          else
            let acc' := acc ++ [n / 256, n % 256]
            match rest with
            | [] => some (acc', ell, [])
            | ':' :: rest2 =>
              match rest2 with
              | [] => none
              | ':' :: rest3 =>
                if ell.isSome then none
                else if rest3.isEmpty then some (acc', some acc'.length, [])
                else parseIPv6Loop fuel' acc' (some acc'.length) rest3
              | _ => parseIPv6Loop fuel' acc' ell rest2
            | _ => none

/-- Checks after Go `parseIPv6`'s loop: leftover input rejected; a short
address needs an ellipsis and is expanded by shifting the tail and zero
filling; a full address must not also carry an ellipsis. -/
def parseIPv6Finish : Option (List Nat × Option Nat × List Char) →
    Option (List Nat)
  | none => none
  | some (acc, ell, srem) =>
    if !srem.isEmpty then none
    else if acc.length < 16 then
      match ell with
      | none => none
      | some e =>
        some (acc.take e ++ List.replicate (16 - acc.length) 0 ++ acc.drop e)
    else if ell.isSome then none
    else some acc

/-- Go `parseIPv6`: returns the 16 address bytes.  A leading `::` sets the
ellipsis to position 0 (and alone denotes the all-zero address). -/
def parseIPv6 (s : List Char) : Option (List Nat) :=
  match s with
  | ':' :: ':' :: rest =>
    if rest.isEmpty then some (List.replicate 16 0)
    else parseIPv6Finish (parseIPv6Loop 8 [] (some 0) rest)
  | _ => parseIPv6Finish (parseIPv6Loop 8 [] none s)

/-- Go `splitHostZone`: strip a `%zone` suffix when `%` occurs at a
positive index (`ParseCIDR` discards the zone). -/
def splitHostZone (s : List Char) : List Char :=
  match lastIdxOf '%' s with
  | some i => if 0 < i then s.take i else s
  | none => s

/-- Go `parseIPv6Zone` as used by `ParseCIDR` (zone discarded). -/
def parseIPv6Zone (s : List Char) : Option (List Nat) :=
  parseIPv6 (splitHostZone s)

/-- Address part of a `ParseCIDR` result: a 4-byte IPv4 value or the 16
bytes of an IPv6 address. -/
inductive ParsedIP where
  | v4 (addr : Nat)
  | v6 (bytes : List Nat)
deriving DecidableEq, Repr

/-- Go `IP.To4`: a 4-byte address as is; a 16-byte address only when it is
IPv4-mapped (`ip[0:10]` zero and `ip[10] = ip[11] = 0xff`), else nil
(modelled as `none`). -/
def to4 : ParsedIP → Option Nat
  | .v4 a => some a
  | .v6 bytes =>
    if bytes.take 10 = List.replicate 10 0 &&
        bytes.getD 10 0 = 255 && bytes.getD 11 0 = 255 then
      some (bytes.getD 12 0 * 16777216 + bytes.getD 13 0 * 65536 +
            bytes.getD 14 0 * 256 + bytes.getD 15 0)
    else none

/-- Go `net.ParseCIDR`: split at the first `/`, parse the address as IPv4
then IPv6, parse the prefix length with `dtoi` and bound it by 8·iplen.
Returns the address, the prefix length `n`, and the mask width in bits
(32 for IPv4, 128 for IPv6). -/
def goParseCIDR (s : String) : Option (ParsedIP × Nat × Nat) :=
  match breakAtFirst '/' s.data with
  | none => none
  | some (addr, maskTxt) =>
    match parseIPv4 addr with
    | some a =>
      match parseDecFull maskTxt with
      | some n => if n ≤ 32 then some (.v4 a, n, 32) else none
      | none => none
    | none =>
      match parseIPv6Zone addr with
      | none => none
      | some bytes =>
        match parseDecFull maskTxt with
        | some n => if n ≤ 128 then some (.v6 bytes, n, 128) else none
        | none => none

/-- Numeric value of a mask with `k` leading one bits out of 32 — the
value `binary.BigEndian.Uint32` reads from the first four bytes of
`net.CIDRMask(n, bits)`.  For an IPv6 mask (`bits = 128`) only the first
four bytes are read, hence the clamp at 32. -/
def maskOfOnes (k : Nat) : Nat := (2 ^ k - 1) <<< (32 - k)

/-- First four mask bytes as a 32-bit value, for a `CIDRMask(n, iplen)`. -/
def goMask32 (n : Nat) : Nat := maskOfOnes (min n 32)

/-- Go `cidrToVector`: parse the CIDR string, convert the address to
uint32 via `To4` (panicking on a non-IPv4-convertible address, because
`binary.BigEndian.Uint32(nil)` indexes out of range), and derive the last
address.  Note that `FirstIP` keeps the parsed address itself — Go stores
`ip`, not `ip.Mask(mask)` — so host bits survive in `FirstIP`. -/
def cidrToVector (s : String) : GoOutcome (Except GoError IPv4Vector) :=
  match goParseCIDR s with
  | none => .ret (.error (.parseError s))
  | some (ip, n, _) =>
    match to4 ip with
    | none => .panic
    | some ipUint =>
      -- Go locals `mask`, `lastIP` inlined
      .ret (.ok ⟨ipUint,
        (ipUint &&& goMask32 n) ||| (goMask32 n ^^^ 4294967295), n⟩)

/-- Go `uint32ToIP` — and also the text `fmt.Sprintf("%s", ...)` produces
for `binaryToIP(ip).To4()` in `mergeIPNets`: the canonical dotted quad of
the four big-endian bytes. -/
def uint32ToIP (ip : Nat) : String :=
  Nat.repr (ip >>> 24 % 256) ++ "." ++ Nat.repr (ip >>> 16 % 256) ++ "." ++
    Nat.repr (ip >>> 8 % 256) ++ "." ++ Nat.repr (ip % 256)

/-- Rendering of one vector in `MergeCIDRs`'s output loop:
`fmt.Sprintf("%s/%d", uint32ToIP(v.FirstIP), v.CIDR.Mask.Size())`. -/
def renderVector (v : IPv4Vector) : String :=
  uint32ToIP v.FirstIP ++ "/" ++ Nat.repr v.maskOnes

/-- Loop of Go `countDifferentBits` on the `%032b` strings, re-indexed:
at stage `fuel` the bit examined is `fuel - 1` (string position
`32 - fuel`); the first difference found scanning from the most
significant bit yields `32 - position = fuel`. -/
def cdbLoop (num1 num2 : Nat) : Nat → Nat
  | 0 => 0
  | f + 1 =>
    if num1.testBit f != num2.testBit f then f + 1
    else cdbLoop num1 num2 f

/-- Go `countDifferentBits`: 32 minus the `%032b` string position of the
first differing bit; 0 when all 32 bits agree. -/
def countDifferentBits (num1 num2 : Nat) : Nat := cdbLoop num1 num2 32

/-- Go `mergeIPNets`: take the smaller `FirstIP` and the larger `LastIP`,
compute the shared-prefix mask length, render `minIP/newMask` and re-parse
it through `cidrToVector`. -/
def mergeIPNets (v1 v2 : IPv4Vector) : GoOutcome (Except GoError IPv4Vector) :=
  let minIP := if v2.FirstIP < v1.FirstIP then v2.FirstIP else v1.FirstIP
  let maxIP := if v2.LastIP < v1.LastIP then v1.LastIP else v2.LastIP
  let newMask := 32 - countDifferentBits minIP maxIP
  cidrToVector (uint32ToIP minIP ++ "/" ++ Nat.repr newMask)

/-- Models Go `uint32(float64(int32(x)))` for `x < 2^32` on the reference
amd64 target: reinterpreting as int32 gives `x` or `x - 2^32`, conversion
to float64 is exact (32 < 53 mantissa bits), and the truncating conversion
back to uint32 goes through int64 and keeps the low 32 bits — the original
bit pattern `x % 2^32`. -/
def i32RoundTrip (x : Nat) : Nat := x % 4294967296

/-- Go `distance`: per-field non-negative differences, each routed through
the int32/float64 cast, summed with wrapping uint32 addition. -/
def distance (v1 v2 : IPv4Vector) : Nat :=
  let minIP := if v2.FirstIP < v1.FirstIP then v1.FirstIP - v2.FirstIP
               else v2.FirstIP - v1.FirstIP
  let maxIP := if v2.LastIP < v1.LastIP then v1.LastIP - v2.LastIP
               else v2.LastIP - v1.LastIP
  (i32RoundTrip minIP + i32RoundTrip maxIP) % 4294967296

/-- State of `closestVectors`'s scan: the best pair seen so far, its
distance (`none` models the initial `math.Inf(1)`; every finite distance
compares below it, and `float64` of a uint32 is exact, so the Go `<` on
float64 is the Nat `<` here), and the recorded indices. -/
structure ClosestState where
  closest1 : IPv4Vector
  closest2 : IPv4Vector
  closestDist : Option Nat
  firstIndex : Nat
  lastIndex : Nat
deriving DecidableEq, Repr

/-- Strict comparison against the running minimum (`dist < closestDist`,
where the initial `closestDist` is `+Inf`). -/
def ltInf (d : Nat) : Option Nat → Bool
  | none => true
  | some d' => d < d'

/-- Go element read `(*in)[i]` (never out of range in the program). -/
def vecAt (vs : List IPv4Vector) (i : Nat) : IPv4Vector := vs.getD i default

/-- The index pairs `(i, j)` visited by the double loop
`for i := 0; i < n-1; i++ { for j := i+1; j < n; j++ }`, in visit order. -/
def pairsList (n : Nat) : List (Nat × Nat) :=
  (List.range n).flatMap fun i =>
    ((List.range n).filter fun j => i < j).map fun j => (i, j)

/-- Body of the double loop in `closestVectors`. -/
def selStep (vs : List IPv4Vector) (st : ClosestState) (p : Nat × Nat) :
    ClosestState :=
  let vi := vecAt vs p.1
  let vj := vecAt vs p.2
  let dist := distance vi vj
  if ltInf dist st.closestDist then
    { closest1 := vi, closest2 := vj, closestDist := some dist,
      firstIndex := if p.2 < p.1 then p.2 else p.1,
      lastIndex := if p.2 < p.1 then p.1 else p.2 }
  else st

/-- Initial state of the scan (Go zero values, `closestDist = Inf`). -/
def initClosest : ClosestState := ⟨default, default, none, 0, 0⟩

/-- Go `closestVectors`: error below two vectors; otherwise scan all pairs
keeping the strictly-smallest distance, then remove the two winning
indices (larger index first — Go's two `append` slice deletions, i.e.
`eraseIdx`). -/
def closestVectors (vs : List IPv4Vector) :
    Except GoError (IPv4Vector × IPv4Vector × List IPv4Vector) :=
  if vs.length < 2 then .error .insufficientVectors
  else
    let st := (pairsList vs.length).foldl (selStep vs) initClosest
    .ok (st.closest1, st.closest2,
         (vs.eraseIdx st.lastIndex).eraseIdx st.firstIndex)

/-- First phase of Go `MergeCIDRs`: walk the input once, collecting tokens
without a `/` as literal output and parsing the rest; the first parse
error (or panic) aborts. -/
def collectTokens : List String →
    GoOutcome (Except GoError (List String × List IPv4Vector))
  | [] => .ret (.ok ([], []))
  | t :: rest =>
    if t.data.contains '/' then
      match cidrToVector t with
      | .panic => .panic
      | .ret (.error e) => .ret (.error e)
      | .ret (.ok v) =>
        match collectTokens rest with
        | .panic => .panic
        | .ret (.error e) => .ret (.error e)
        | .ret (.ok (lits, vs)) => .ret (.ok (lits, v :: vs))
    else
      match collectTokens rest with
      | .panic => .panic
      | .ret (.error e) => .ret (.error e)
      | .ret (.ok (lits, vs)) => .ret (.ok (t :: lits, vs))

/-- Go `MergeCIDRs`: partition the input, run one closest-pair selection
and one merge, append the merged vector, and render everything.  The
`maxIpNum` parameter is accepted and never read, exactly as in the Go
code.  On error Go returns `([]string{}, err)`; on success `(out, nil)`. -/
def MergeCIDRs (input : List String) (maxIpNum : Nat) :
    GoOutcome (List String × Option GoError) :=
  match collectTokens input with
  | .panic => .panic
  | .ret (.error e) => .ret ([], some e)
  | .ret (.ok (lits, vectors)) =>
    match closestVectors vectors with
    | .error e => .ret ([], some e)
    | .ok (v1, v2, rest) =>
      match mergeIPNets v1 v2 with
      | .panic => .panic
      | .ret (.error e) => .ret ([], some e)
      | .ret (.ok newRange) =>
        .ret (lits ++ (rest ++ [newRange]).map renderVector, none)

/-! ### Spec-side definitions

These two follow the WORDS of the specification (§4.2: "distance(A,B) =
|A.first − B.first| + |A.last − B.last|, computed as non-negative unsigned
differences"), to be compared against the implementation's `distance`. -/

/-- Exact non-negative difference, "subtract the smaller from the larger". -/
def specAbsDiff (a b : Nat) : Nat := max a b - min a b

/-- The exact distance the spec describes, with no narrowing casts. -/
def specDistance (v1 v2 : IPv4Vector) : Nat :=
  specAbsDiff v1.FirstIP v2.FirstIP + specAbsDiff v1.LastIP v2.LastIP

/-! ### Decidable views of parser outcomes (used to state hypotheses) -/

/-- Token parses through `cidrToVector` without error or panic. -/
def parseOk (t : String) : Bool :=
  match cidrToVector t with
  | .ret (.ok _) => true
  | _ => false

/-- Token makes `cidrToVector` return a (non-panic) error. -/
def parseFails (t : String) : Bool :=
  match cidrToVector t with
  | .ret (.error _) => true
  | _ => false

/-- The vector a successfully parsed token yields (default elsewhere). -/
def parsedOf (t : String) : IPv4Vector :=
  match cidrToVector t with
  | .ret (.ok v) => v
  | _ => default

/-- Distance of an index pair within a collection. -/
def pairDist (vs : List IPv4Vector) (p : Nat × Nat) : Nat :=
  distance (vecAt vs p.1) (vecAt vs p.2)

set_option maxRecDepth 10000

/-! ### Helper lemmas: bit arithmetic -/

/-- Joining bits can only grow a natural number. -/
theorem le_lor_left (a b : Nat) : a ≤ a ||| b := by
  have h : a &&& (a ||| b) = a := by
    apply Nat.eq_of_testBit_eq
    intro i
    simp only [Nat.testBit_and, Nat.testBit_or]
    cases a.testBit i <;> simp
  calc a = a &&& (a ||| b) := h.symm
    _ ≤ a ||| b := Nat.and_le_right

/-- Bit `i` of the `k`-leading-ones mask. -/
theorem testBit_maskOfOnes (k i : Nat) :
    (maskOfOnes k).testBit i =
      (decide (32 - k ≤ i) && decide (i - (32 - k) < k)) := by
  simp [maskOfOnes, Nat.testBit_shiftLeft, Nat.testBit_two_pow_sub_one]

/-- The mask value fits in 32 bits. -/
theorem maskOfOnes_lt (k : Nat) (hk : k ≤ 32) : maskOfOnes k < 4294967296 := by
  have h1 : (2 : Nat) ^ k - 1 < 2 ^ k :=
    Nat.sub_lt (Nat.two_pow_pos k) (by norm_num)
  have h2 : maskOfOnes k = (2 ^ k - 1) * 2 ^ (32 - k) := Nat.shiftLeft_eq _ _
  have h3 : (2 ^ k - 1) * 2 ^ (32 - k) < 2 ^ k * 2 ^ (32 - k) :=
    Nat.mul_lt_mul_of_lt_of_le h1 (Nat.le_refl _) (Nat.two_pow_pos _)
  have h4 : (2 : Nat) ^ k * 2 ^ (32 - k) = 2 ^ 32 := by
    rw [← pow_add]
    congr 1
    omega
  have : maskOfOnes k < 2 ^ 32 := by rw [h2]; omega
  simpa using this

/-- A number below `2^32` has no bits at positions 32 and above. -/
theorem testBit_ge32 (a i : Nat) (ha : a < 4294967296) (hi : 32 ≤ i) :
    a.testBit i = false := by
  apply Nat.testBit_lt_two_pow
  calc a < 4294967296 := ha
    _ = 2 ^ 32 := by norm_num
    _ ≤ 2 ^ i := Nat.pow_le_pow_right (by norm_num) hi

/-- The loop result never exceeds the remaining fuel. -/
theorem cdbLoop_le (x y : Nat) : ∀ f, cdbLoop x y f ≤ f := by
  intro f
  induction f with
  | zero => simp [cdbLoop]
  | succ f ih =>
    rw [cdbLoop]
    split
    · exact Nat.le_refl _
    · exact Nat.le_trans ih (Nat.le_succ f)

/-- Bits above the first difference agree: positions at or above the
returned count (and below the fuel) carry equal bits. -/
theorem cdbLoop_shared (x y : Nat) :
    ∀ f j, cdbLoop x y f ≤ j → j < f → x.testBit j = y.testBit j := by
  intro f
  induction f with
  | zero => intro j h1 h2; omega
  | succ f ih =>
    intro j h1 h2
    by_cases hb : x.testBit f = y.testBit f
    · have hcond : (x.testBit f != y.testBit f) = false := by simp [hb]
      rw [cdbLoop, hcond] at h1
      simp only [Bool.false_eq_true, if_false] at h1
      rcases Nat.lt_or_ge j f with h | h
      · exact ih j h1 h
      · have : j = f := by omega
        subst this
        exact hb
    · have hcond : (x.testBit f != y.testBit f) = true := by
        simp [bne_iff_ne, hb]
      rw [cdbLoop, hcond] at h1
      simp only [if_true] at h1
      omega

/-- Absorbing the mask into the address before setting the host bits
changes nothing: with all host bits forced to one, the host bits of the
address are irrelevant. -/
theorem and_mask_or_host (a k : Nat) (ha : a < 4294967296) (hk : k ≤ 32) :
    (a &&& maskOfOnes k) ||| (maskOfOnes k ^^^ 4294967295) =
      a ||| (maskOfOnes k ^^^ 4294967295) := by
  have h95 : (4294967295 : Nat) = 2 ^ 32 - 1 := by norm_num
  apply Nat.eq_of_testBit_eq
  intro i
  simp only [Nat.testBit_or, Nat.testBit_and, Nat.testBit_xor, h95,
    Nat.testBit_two_pow_sub_one, testBit_maskOfOnes]
  by_cases h32 : i < 32
  · by_cases hmk : 32 - k ≤ i
    · have hik : i - (32 - k) < k := by omega
      rw [decide_eq_true hmk, decide_eq_true hik, decide_eq_true h32]
      cases a.testBit i <;> simp
    · rw [decide_eq_false hmk, decide_eq_true h32]
      cases a.testBit i <;> simp
  · have hik : ¬(i - (32 - k) < k) := by omega
    rw [decide_eq_false hik, decide_eq_false h32,
      testBit_ge32 a i ha (by omega)]
    simp

/-- Core covering fact: forcing ones on every bit position below the
first `x`/`y` difference, on top of `x`'s shared high bits, dominates `y`
bitwise, hence numerically. -/
theorem le_merged_last (x y : Nat) (hx : x < 4294967296) (hy : y < 4294967296) :
    y ≤ (x &&& maskOfOnes (32 - countDifferentBits x y)) |||
        (maskOfOnes (32 - countDifferentBits x y) ^^^ 4294967295) := by
  have h95 : (4294967295 : Nat) = 2 ^ 32 - 1 := by norm_num
  have hcle : countDifferentBits x y ≤ 32 := cdbLoop_le x y 32
  have key : y &&& ((x &&& maskOfOnes (32 - countDifferentBits x y)) |||
      (maskOfOnes (32 - countDifferentBits x y) ^^^ 4294967295)) = y := by
    apply Nat.eq_of_testBit_eq
    intro i
    simp only [Nat.testBit_and, Nat.testBit_or, Nat.testBit_xor, h95,
      Nat.testBit_two_pow_sub_one, testBit_maskOfOnes]
    by_cases h32 : i < 32
    · by_cases hci : countDifferentBits x y ≤ i
      · have hxy : x.testBit i = y.testBit i := cdbLoop_shared x y 32 i hci h32
        have hmk : 32 - (32 - countDifferentBits x y) ≤ i := by omega
        have hik : i - (32 - (32 - countDifferentBits x y)) <
            32 - countDifferentBits x y := by omega
        rw [decide_eq_true hmk, decide_eq_true hik, decide_eq_true h32, hxy]
        cases y.testBit i <;> simp
      · have hmk : ¬(32 - (32 - countDifferentBits x y) ≤ i) := by omega
        rw [decide_eq_false hmk, decide_eq_true h32]
        cases y.testBit i <;> simp
    · rw [testBit_ge32 y i hy (by omega)]
      simp
  calc y = y &&& _ := key.symm
    _ ≤ _ := Nat.and_le_right

/-! ### Helper lemmas: decimal rendering round-trips (finite checks) -/

/-- Rendering a byte and reading it back as a dotted-quad octet is the
identity (checked exhaustively for all 256 byte values). -/
theorem decOctet_repr : ∀ b : Nat, b < 256 → decOctet (Nat.repr b).data = some b := by
  decide

/-- A rendered byte contains neither separator character. -/
theorem repr_byte_sep : ∀ b : Nat, b < 256 →
    '.' ∉ (Nat.repr b).data ∧ '/' ∉ (Nat.repr b).data := by
  decide

/-- Rendering a prefix length and reading it back with `dtoi` is the
identity, and the digits contain no `/`. -/
theorem parseDecFull_repr : ∀ n : Nat, n < 33 →
    parseDecFull (Nat.repr n).data = some n ∧ '/' ∉ (Nat.repr n).data := by
  decide

/-! ### Helper lemmas: splitting -/

/-- Splitting a list free of the separator yields one field. -/
theorem splitOnChar_not_mem (c : Char) (xs : List Char) (h : c ∉ xs) :
    splitOnChar c xs = [xs] := by
  induction xs with
  | nil => rfl
  | cons x xs ih =>
    have hx : ¬(x = c) := fun e => h (e ▸ List.mem_cons_self x xs)
    have h' : c ∉ xs := fun m => h (List.mem_cons_of_mem _ m)
    simp [splitOnChar, hx, ih h']

/-- Splitting peels off a separator-free field before the separator. -/
theorem splitOnChar_append (c : Char) (xs ys : List Char) (h : c ∉ xs) :
    splitOnChar c (xs ++ c :: ys) = xs :: splitOnChar c ys := by
  induction xs with
  | nil => simp [splitOnChar]
  | cons x xs ih =>
    have hx : ¬(x = c) := fun e => h (e ▸ List.mem_cons_self x xs)
    have h' : c ∉ xs := fun m => h (List.mem_cons_of_mem _ m)
    simp only [List.cons_append, splitOnChar, if_neg hx]
    rw [show splitOnChar c (List.append xs (c :: ys)) = xs :: splitOnChar c ys
      from ih h']

/-- Breaking at the first separator occurrence. -/
theorem breakAtFirst_append (c : Char) (xs ys : List Char) (h : c ∉ xs) :
    breakAtFirst c (xs ++ c :: ys) = some (xs, ys) := by
  induction xs with
  | nil => simp [breakAtFirst]
  | cons x xs ih =>
    have hx : ¬(x = c) := fun e => h (e ▸ List.mem_cons_self x xs)
    have h' : c ∉ xs := fun m => h (List.mem_cons_of_mem _ m)
    simp only [List.cons_append, breakAtFirst, if_neg hx]
    rw [show breakAtFirst c (List.append xs (c :: ys)) = some (xs, ys)
      from ih h']

/-! ### Helper lemmas: the rendered dotted quad parses back -/

/-- Character data of a rendered address. -/
theorem uint32ToIP_data (a : Nat) : (uint32ToIP a).data =
    (Nat.repr (a >>> 24 % 256)).data ++ '.' ::
      ((Nat.repr (a >>> 16 % 256)).data ++ '.' ::
        ((Nat.repr (a >>> 8 % 256)).data ++ '.' ::
          (Nat.repr (a % 256)).data)) := by
  have hdot : (".").data = ['.'] := rfl
  simp [uint32ToIP, String.data_append, hdot, List.append_assoc]

/-- Character data of a rendered CIDR string. -/
theorem cidrString_data (a n : Nat) :
    (uint32ToIP a ++ "/" ++ Nat.repr n).data =
      (uint32ToIP a).data ++ '/' :: (Nat.repr n).data := by
  have hsl : ("/").data = ['/'] := rfl
  simp [String.data_append, hsl, List.append_assoc]

/-- The rendered address contains no slash. -/
theorem slash_not_mem_quad (a : Nat) : '/' ∉ (uint32ToIP a).data := by
  have m3 := (repr_byte_sep (a >>> 24 % 256) (Nat.mod_lt _ (by norm_num))).2
  have m2 := (repr_byte_sep (a >>> 16 % 256) (Nat.mod_lt _ (by norm_num))).2
  have m1 := (repr_byte_sep (a >>> 8 % 256) (Nat.mod_lt _ (by norm_num))).2
  have m0 := (repr_byte_sep (a % 256) (Nat.mod_lt _ (by norm_num))).2
  rw [uint32ToIP_data]
  intro hmem
  simp only [List.mem_append, List.mem_cons] at hmem
  rcases hmem with h | h | h | h | h | h | h
  · exact m3 h
  · exact absurd h (by decide)
  · exact m2 h
  · exact absurd h (by decide)
  · exact m1 h
  · exact absurd h (by decide)
  · exact m0 h

/-- Parsing the rendered dotted quad recovers the 32-bit value. -/
theorem parseIPv4_render (a : Nat) (ha : a < 4294967296) :
    parseIPv4 (uint32ToIP a).data = some a := by
  have b3 : a >>> 24 % 256 < 256 := Nat.mod_lt _ (by norm_num)
  have b2 : a >>> 16 % 256 < 256 := Nat.mod_lt _ (by norm_num)
  have b1 : a >>> 8 % 256 < 256 := Nat.mod_lt _ (by norm_num)
  have b0 : a % 256 < 256 := Nat.mod_lt _ (by norm_num)
  rw [uint32ToIP_data]
  simp only [parseIPv4,
    splitOnChar_append _ _ _ (repr_byte_sep _ b3).1,
    splitOnChar_append _ _ _ (repr_byte_sep _ b2).1,
    splitOnChar_append _ _ _ (repr_byte_sep _ b1).1,
    splitOnChar_not_mem _ _ (repr_byte_sep _ b0).1,
    decOctet_repr _ b3, decOctet_repr _ b2, decOctet_repr _ b1,
    decOctet_repr _ b0]
  have e3 : a >>> 24 = a / 16777216 := Nat.shiftRight_eq_div_pow a 24
  have e2 : a >>> 16 = a / 65536 := Nat.shiftRight_eq_div_pow a 16
  have e1 : a >>> 8 = a / 256 := Nat.shiftRight_eq_div_pow a 8
  simp only [e3, e2, e1]
  congr 1
  omega

/-- The whole rendered CIDR string parses back exactly. -/
theorem goParseCIDR_render (a n : Nat) (ha : a < 4294967296) (hn : n ≤ 32) :
    goParseCIDR (uint32ToIP a ++ "/" ++ Nat.repr n) = some (.v4 a, n, 32) := by
  simp only [goParseCIDR, cidrString_data,
    breakAtFirst_append _ _ _ (slash_not_mem_quad a),
    parseIPv4_render a ha, (parseDecFull_repr n (by omega)).1, if_pos hn]

/-- Rendered CIDR strings re-enter `cidrToVector` as plain IPv4 vectors. -/
theorem cidrToVector_render (a n : Nat) (ha : a < 4294967296) (hn : n ≤ 32) :
    cidrToVector (uint32ToIP a ++ "/" ++ Nat.repr n) =
      .ret (.ok ⟨a, (a &&& maskOfOnes n) ||| (maskOfOnes n ^^^ 4294967295), n⟩) := by
  simp only [cidrToVector, goParseCIDR_render a n ha hn, to4, goMask32,
    Nat.min_eq_left hn]

/-! ### Helper lemmas: every parsed address fits in 32 bits -/

/-- An accepted octet is at most 255. -/
theorem decOctet_le (cs : List Char) (n : Nat) (h : decOctet cs = some n) :
    n ≤ 255 := by
  unfold decOctet at h
  rcases hp : parseDecFull cs with _ | m
  · simp only [hp] at h
    cases h
  · simp only [hp] at h
    by_cases h255 : 255 < m
    · simp only [if_pos h255] at h
      cases h
    · simp only [if_neg h255] at h
      split at h
      · cases h
      · cases h
        omega

/-- A parsed dotted quad fits in 32 bits. -/
theorem parseIPv4_lt (cs : List Char) (a : Nat) (h : parseIPv4 cs = some a) :
    a < 4294967296 := by
  unfold parseIPv4 at h
  split at h
  · split at h
    · rename_i heq3 heq2 heq1 heq0
      cases h
      have := decOctet_le _ _ heq3
      have := decOctet_le _ _ heq2
      have := decOctet_le _ _ heq1
      have := decOctet_le _ _ heq0
      omega
    · cases h
  · cases h

/-- Bytes written by the `parseIPv6` loop stay below 256. -/
theorem parseIPv6Loop_bytes : ∀ (fuel : Nat) (acc : List Nat) (ell : Option Nat)
    (s : List Char) (acc' : List Nat) (ell' : Option Nat) (s' : List Char),
    (∀ b ∈ acc, b < 256) →
    parseIPv6Loop fuel acc ell s = some (acc', ell', s') →
    ∀ b ∈ acc', b < 256 := by
  intro fuel
  induction fuel with
  | zero =>
    intro acc ell s acc' ell' s' hacc h
    rw [parseIPv6Loop] at h
    split at h
    · cases h
      exact hacc
    · cases h
  | succ fuel ih =>
    intro acc ell s acc' ell' s' hacc h
    rw [parseIPv6Loop] at h
    split at h
    · cases h
      exact hacc
    · split at h
      · cases h
      · rename_i n rest hx
        split at h
        · cases h
        · rename_i h65
          split at h
          · split at h
            · cases h
            · split at h
              · cases h
              · split at h
                · cases h
                · rename_i a hp4
                  cases h
                  intro b hb
                  rcases List.mem_append.1 hb with hb | hb
                  · exact hacc b hb
                  · simp only [List.mem_cons, List.not_mem_nil, or_false] at hb
                    rcases hb with rfl | rfl | rfl | rfl
                    · exact Nat.mod_lt _ (by norm_num)
                    · exact Nat.mod_lt _ (by norm_num)
                    · exact Nat.mod_lt _ (by norm_num)
                    · exact Nat.mod_lt _ (by norm_num)
          · have hacc2 : ∀ b ∈ acc ++ [n / 256, n % 256], b < 256 := by
              intro b hb
              rcases List.mem_append.1 hb with hb | hb
              · exact hacc b hb
              · simp only [List.mem_cons, List.not_mem_nil, or_false] at hb
                rcases hb with rfl | rfl
                · omega
                · exact Nat.mod_lt _ (by norm_num)
            split at h
            · cases h
              exact hacc2
            · split at h
              · cases h
              · split at h
                · cases h
                · split at h
                  · cases h
                    exact hacc2
                  · exact ih _ _ _ _ _ _ hacc2 h
              · exact ih _ _ _ _ _ _ hacc2 h
            · cases h

/-- Bytes surviving the post-loop checks stay below 256 when the loop
output was bounded. -/
theorem parseIPv6Finish_bytes (o : Option (List Nat × Option Nat × List Char))
    (bytes : List Nat)
    (ho : ∀ acc ell srem, o = some (acc, ell, srem) → ∀ b ∈ acc, b < 256)
    (h : parseIPv6Finish o = some bytes) : ∀ b ∈ bytes, b < 256 := by
  rcases o with _ | ⟨acc, ell, srem⟩
  · cases h
  · have hacc : ∀ b ∈ acc, b < 256 := ho acc ell srem rfl
    simp only [parseIPv6Finish] at h
    split at h
    · cases h
    · split at h
      · split at h
        · cases h
        · cases h
          intro b hb
          rcases List.mem_append.1 hb with hb | hb
          · rcases List.mem_append.1 hb with hb | hb
            · exact hacc b (List.mem_of_mem_take hb)
            · have := List.eq_of_mem_replicate hb
              omega
          · exact hacc b (List.mem_of_mem_drop hb)
      · split at h
        · cases h
        · cases h
          exact hacc

/-- Bytes of a parsed IPv6 address stay below 256. -/
theorem parseIPv6_bytes (s : List Char) (bytes : List Nat)
    (h : parseIPv6 s = some bytes) : ∀ b ∈ bytes, b < 256 := by
  unfold parseIPv6 at h
  split at h
  · split at h
    · cases h
      intro b hb
      have := List.eq_of_mem_replicate hb
      omega
    · exact parseIPv6Finish_bytes _ _
        (fun acc ell srem hl => parseIPv6Loop_bytes 8 [] _ _ _ _ _
          (by intro b hb; cases hb) hl) h
  · exact parseIPv6Finish_bytes _ _
      (fun acc ell srem hl => parseIPv6Loop_bytes 8 [] _ _ _ _ _
        (by intro b hb; cases hb) hl) h

/-- A position read with `getD` from a byte list stays below 256. -/
theorem getD_lt (l : List Nat) (hb : ∀ b ∈ l, b < 256) (i : Nat) :
    l.getD i 0 < 256 := by
  rw [List.getD_eq_getElem?_getD]
  rcases hg : l[i]? with _ | x
  · simp
  · have hm : x ∈ l := by
      have hlt : i < l.length := by
        by_contra hc
        rw [List.getElem?_eq_none (by omega)] at hg
        cases hg
      rw [List.getElem?_eq_getElem hlt] at hg
      cases hg
      exact List.getElem_mem hlt
    simpa using hb x hm

/-- An accepted IPv4-branch address from `ParseCIDR` fits in 32 bits. -/
theorem goParseCIDR_v4_lt (s : String) (a n w : Nat)
    (h : goParseCIDR s = some (.v4 a, n, w)) : a < 4294967296 := by
  unfold goParseCIDR at h
  split at h
  · cases h
  · split at h
    · rename_i a0 hp4
      split at h
      · split at h
        · cases h
          exact parseIPv4_lt _ _ hp4
        · cases h
      · cases h
    · split at h
      · cases h
      · split at h
        · split at h
          · cases h
          · cases h
        · cases h

/-- Bytes of an accepted IPv6-branch address are bytes. -/
theorem goParseCIDR_v6_bytes (s : String) (bytes : List Nat) (n w : Nat)
    (h : goParseCIDR s = some (.v6 bytes, n, w)) : ∀ b ∈ bytes, b < 256 := by
  unfold goParseCIDR at h
  split at h
  · cases h
  · split at h
    · split at h
      · split at h
        · cases h
        · cases h
      · cases h
    · split at h
      · cases h
      · rename_i bytes0 hp6
        split at h
        · split at h
          · cases h
            exact parseIPv6_bytes _ _ hp6
          · cases h
        · cases h

/-- The only error `cidrToVector` ever returns is the parse error naming
its own input. -/
theorem cidr_err_shape (s : String) (e : GoError)
    (h : cidrToVector s = .ret (.error e)) : e = .parseError s := by
  unfold cidrToVector at h
  split at h
  · cases h
    rfl
  · split at h
    · cases h
    · cases h

/-- Shape of every successfully parsed vector: the first address is the
raw parsed address (32 bits), and the last address is the first with all
host bits of the 32-bit mask forced to one — hence not below the first. -/
theorem cidr_ok_shape (s : String) (v : IPv4Vector)
    (h : cidrToVector s = .ret (.ok v)) :
    v.FirstIP < 4294967296 ∧
    v.LastIP = (v.FirstIP &&& goMask32 v.maskOnes) |||
      (goMask32 v.maskOnes ^^^ 4294967295) ∧
    v.FirstIP ≤ v.LastIP ∧ v.LastIP < 4294967296 := by
  unfold cidrToVector at h
  split at h
  · cases h
  · rename_i ip n w hparse
    split at h
    · cases h
    · rename_i ipUint hto4
      cases h
      have hfirst : ipUint < 4294967296 := by
        cases ip with
        | v4 a0 =>
          simp only [to4, Option.some.injEq] at hto4
          subst hto4
          exact goParseCIDR_v4_lt s _ _ _ hparse
        | v6 bytes =>
          have hb := goParseCIDR_v6_bytes s _ _ _ hparse
          simp only [to4] at hto4
          split at hto4
          · cases hto4
            have h12 := getD_lt bytes hb 12
            have h13 := getD_lt bytes hb 13
            have h14 := getD_lt bytes hb 14
            have h15 := getD_lt bytes hb 15
            omega
          · cases hto4
      have hmle : min n 32 ≤ 32 := Nat.min_le_right n 32
      refine ⟨hfirst, rfl, ?_, ?_⟩
      · rw [show goMask32 n = maskOfOnes (min n 32) from rfl,
          and_mask_or_host ipUint (min n 32) hfirst hmle]
        exact le_lor_left _ _
      · rw [show (4294967296 : Nat) = 2 ^ 32 from by norm_num]
        apply Nat.or_lt_two_pow
        · have : ipUint &&& goMask32 n ≤ ipUint := Nat.and_le_left
          omega
        · apply Nat.xor_lt_two_pow
          · have := maskOfOnes_lt (min n 32) hmle
            rw [show goMask32 n = maskOfOnes (min n 32) from rfl]
            omega
          · norm_num

/-- Closed form of `mergeIPNets`: it always succeeds, the new first
address is the smaller input first address verbatim, the new prefix
length keeps the bits shared between the extreme addresses, and the new
last address sets every host bit. -/
theorem mergeIPNets_eq (v1 v2 : IPv4Vector)
    (h1 : v1.FirstIP < 4294967296) (h2 : v2.FirstIP < 4294967296)
    (h3 : v1.LastIP < 4294967296) (h4 : v2.LastIP < 4294967296) :
    mergeIPNets v1 v2 = .ret (.ok
      ⟨min v1.FirstIP v2.FirstIP,
       (min v1.FirstIP v2.FirstIP &&&
          maskOfOnes (32 - countDifferentBits (min v1.FirstIP v2.FirstIP)
            (max v1.LastIP v2.LastIP))) |||
         (maskOfOnes (32 - countDifferentBits (min v1.FirstIP v2.FirstIP)
            (max v1.LastIP v2.LastIP)) ^^^ 4294967295),
       32 - countDifferentBits (min v1.FirstIP v2.FirstIP)
         (max v1.LastIP v2.LastIP)⟩) := by
  have hmin : (if v2.FirstIP < v1.FirstIP then v2.FirstIP else v1.FirstIP) =
      min v1.FirstIP v2.FirstIP := by
    split <;> omega
  have hmax : (if v2.LastIP < v1.LastIP then v1.LastIP else v2.LastIP) =
      max v1.LastIP v2.LastIP := by
    split <;> omega
  have hminlt : min v1.FirstIP v2.FirstIP < 4294967296 := by omega
  simp only [mergeIPNets, hmin, hmax]
  exact cidrToVector_render _ _ hminlt (Nat.sub_le _ _)

/-! ### Helper lemmas: the closest-pair scan -/

/-- Membership in the visited pair list is exactly `i < j < n`. -/
theorem pairsList_mem (n : Nat) (p : Nat × Nat) :
    p ∈ pairsList n ↔ p.1 < p.2 ∧ p.2 < n := by
  rcases p with ⟨i, j⟩
  simp only [pairsList, List.mem_flatMap, List.mem_map, List.mem_filter,
    List.mem_range, Prod.mk.injEq]
  constructor
  · rintro ⟨a, _, b, ⟨hbn, hab⟩, rfl, rfl⟩
    exact ⟨by simpa using hab, hbn⟩
  · rintro ⟨hij, hjn⟩
    exact ⟨i, by omega, j, ⟨hjn, by simpa using hij⟩, rfl, rfl⟩

/-- Invariant of the double-loop scan, by induction over the visited pair
list from the back: after a non-empty scan the state holds the first pair
attaining the minimum distance, together with its indices in min/max
order. -/
theorem selScan_spec (vs : List IPv4Vector) (ps : List (Nat × Nat)) :
    ps ≠ [] → ∃ (k : Nat) (hk : k < ps.length),
      (ps.foldl (selStep vs) initClosest).closest1 = vecAt vs (ps[k]).1 ∧
      (ps.foldl (selStep vs) initClosest).closest2 = vecAt vs (ps[k]).2 ∧
      (ps.foldl (selStep vs) initClosest).closestDist =
        some (pairDist vs (ps[k])) ∧
      (ps.foldl (selStep vs) initClosest).firstIndex =
        min (ps[k]).1 (ps[k]).2 ∧
      (ps.foldl (selStep vs) initClosest).lastIndex =
        max (ps[k]).1 (ps[k]).2 ∧
      (∀ q ∈ ps, pairDist vs (ps[k]) ≤ pairDist vs q) ∧
      (∀ q ∈ ps.take k, pairDist vs (ps[k]) < pairDist vs q) := by
  have hif1 : ∀ i j : Nat, (if j < i then j else i) = min i j := by
    intro i j
    split <;> omega
  have hif2 : ∀ i j : Nat, (if j < i then i else j) = max i j := by
    intro i j
    split <;> omega
  induction ps using List.reverseRecOn with
  | nil => intro h; cases h rfl
  | append_singleton l p ih =>
    intro _
    rw [List.foldl_append]
    simp only [List.foldl_cons, List.foldl_nil]
    rcases eq_or_ne l [] with rfl | hl
    · refine ⟨0, by simp, ?_⟩
      simp [selStep, ltInf, initClosest, pairDist, hif1, hif2]
    · obtain ⟨k, hk, hc1, hc2, hcd, hfi, hla, hmin, htk⟩ := ih hl
      have hk1 : k < (l ++ [p]).length := by
        simp only [List.length_append, List.length_cons, List.length_nil]
        omega
      have hl1 : l.length < (l ++ [p]).length := by
        simp only [List.length_append, List.length_cons, List.length_nil]
        omega
      by_cases hlt : pairDist vs p < pairDist vs (l[k])
      · refine ⟨l.length, hl1, ?_⟩
        have hget : (l ++ [p])[l.length] = p :=
          List.getElem_concat_length l p _ rfl _
        have hcond : ltInf (distance (vecAt vs p.1) (vecAt vs p.2))
            (some (pairDist vs (l[k]))) = true := by
          simpa [ltInf, pairDist] using hlt
        have hstep : selStep vs (List.foldl (selStep vs) initClosest l) p =
            { closest1 := vecAt vs p.1, closest2 := vecAt vs p.2,
              closestDist := some (pairDist vs p),
              firstIndex := if p.2 < p.1 then p.2 else p.1,
              lastIndex := if p.2 < p.1 then p.1 else p.2 } := by
          simp only [selStep]
          rw [hcd, if_pos hcond]
          rfl
        rw [hstep, hget]
        refine ⟨rfl, rfl, rfl, hif1 _ _, hif2 _ _, ?_, ?_⟩
        · intro q hq
          rcases List.mem_append.1 hq with hq | hq
          · exact Nat.le_trans (Nat.le_of_lt hlt) (hmin q hq)
          · simp only [List.mem_cons, List.not_mem_nil, or_false] at hq
            subst hq
            exact Nat.le_refl _
        · rw [List.take_append_of_le_length (Nat.le_refl _), List.take_length]
          intro q hq
          exact Nat.lt_of_lt_of_le hlt (hmin q hq)
      · refine ⟨k, hk1, ?_⟩
        have hget : (l ++ [p])[k] = l[k] := List.getElem_append_left hk
        have hcond : ltInf (distance (vecAt vs p.1) (vecAt vs p.2))
            (some (pairDist vs (l[k]))) = false := by
          simpa [ltInf, pairDist] using hlt
        have hstep : selStep vs (List.foldl (selStep vs) initClosest l) p =
            List.foldl (selStep vs) initClosest l := by
          simp only [selStep]
          rw [hcd, if_neg (by rw [hcond]; exact Bool.false_ne_true)]
        rw [hstep, hget]
        refine ⟨hc1, hc2, hcd, hfi, hla, ?_, ?_⟩
        · intro q hq
          rcases List.mem_append.1 hq with hq | hq
          · exact hmin q hq
          · simp only [List.mem_cons, List.not_mem_nil, or_false] at hq
            subst hq
            omega
        · rw [List.take_append_of_le_length (Nat.le_of_lt hk)]
          exact htk

/-- Characterisation of a successful `closestVectors` call: the returned
pair sits at some position `k` of the visited pair list, minimises the
implementation distance over all visited pairs, strictly beats every
earlier pair, and the survivors are the input minus the two indices
(larger first). -/
theorem closestVectors_eq (vs : List IPv4Vector) (h2 : 2 ≤ vs.length) :
    ∃ (k : Nat) (hk : k < (pairsList vs.length).length),
      ((pairsList vs.length)[k]).1 < ((pairsList vs.length)[k]).2 ∧
      ((pairsList vs.length)[k]).2 < vs.length ∧
      closestVectors vs = .ok
        (vecAt vs ((pairsList vs.length)[k]).1,
         vecAt vs ((pairsList vs.length)[k]).2,
         (vs.eraseIdx ((pairsList vs.length)[k]).2).eraseIdx
           ((pairsList vs.length)[k]).1) ∧
      (∀ q ∈ pairsList vs.length,
        pairDist vs ((pairsList vs.length)[k]) ≤ pairDist vs q) ∧
      (∀ q ∈ (pairsList vs.length).take k,
        pairDist vs ((pairsList vs.length)[k]) < pairDist vs q) := by
  have hmem01 : ((0, 1) : Nat × Nat) ∈ pairsList vs.length :=
    (pairsList_mem _ _).2 ⟨by omega, by omega⟩
  have hne : pairsList vs.length ≠ [] := List.ne_nil_of_mem hmem01
  obtain ⟨k, hk, hc1, hc2, hcd, hfi, hla, hmin, htk⟩ := selScan_spec vs _ hne
  have hpmem : (pairsList vs.length)[k] ∈ pairsList vs.length :=
    List.getElem_mem hk
  obtain ⟨hlt, hltn⟩ := (pairsList_mem _ _).1 hpmem
  refine ⟨k, hk, hlt, hltn, ?_, hmin, htk⟩
  unfold closestVectors
  rw [if_neg (by omega : ¬ vs.length < 2)]
  dsimp only
  rw [hc1, hc2, hfi, hla, Nat.min_eq_left (Nat.le_of_lt hlt),
    Nat.max_eq_right (Nat.le_of_lt hlt)]

/-! ### Helper lemmas: the token-collection pass -/

/-- When every CIDR-looking token parses cleanly, the first pass returns
exactly the literals (in order) and the parsed vectors (in order). -/
theorem collectTokens_ok (input : List String)
    (h : ∀ t ∈ input, t.data.contains '/' = true → parseOk t = true) :
    collectTokens input = .ret (.ok
      (input.filter (fun t => !(t.data.contains '/')),
       (input.filter (fun t => t.data.contains '/')).map parsedOf)) := by
  induction input with
  | nil => rfl
  | cons t rest ih =>
    have hrest : ∀ u ∈ rest, u.data.contains '/' = true → parseOk u = true :=
      fun u hu => h u (List.mem_cons_of_mem _ hu)
    by_cases hc : t.data.contains '/' = true
    · have hv : ∃ v, cidrToVector t = .ret (.ok v) := by
        have hok := h t (List.mem_cons_self _ _) hc
        unfold parseOk at hok
        split at hok
        · rename_i v hv
          exact ⟨v, hv⟩
        · cases hok
      obtain ⟨v, hv⟩ := hv
      have hpv : parsedOf t = v := by
        unfold parsedOf
        rw [hv]
      simp only [collectTokens, hc, if_true, hv, ih hrest,
        List.filter_cons, Bool.not_true, Bool.false_eq_true, if_false, hpv,
        List.map_cons]
    · have hcf : t.data.contains '/' = false := by
        cases hb : t.data.contains '/'
        · rfl
        · exact absurd hb hc
      simp only [collectTokens, hcf, Bool.false_eq_true, if_false, ih hrest,
        List.filter_cons, Bool.not_false, if_true]

/-- When no CIDR-looking token panics and some CIDR-looking token fails to
parse, the first pass returns the parse error of the first such token. -/
theorem collectTokens_first_err (input : List String) (t0 : String)
    (hnp : ∀ t ∈ input, t.data.contains '/' = true → cidrToVector t ≠ .panic)
    (hfind : input.find? (fun t => t.data.contains '/' && parseFails t) =
      some t0) :
    collectTokens input = .ret (.error (.parseError t0)) := by
  induction input with
  | nil => cases hfind
  | cons t rest ih =>
    have hnprest : ∀ t ∈ rest, t.data.contains '/' = true →
        cidrToVector t ≠ .panic :=
      fun u hu => hnp u (List.mem_cons_of_mem _ hu)
    rw [List.find?_cons] at hfind
    by_cases hp : (t.data.contains '/' && parseFails t) = true
    · rw [hp] at hfind
      have ht0 : t = t0 := by simpa using hfind
      subst ht0
      obtain ⟨hc, hf⟩ := Bool.and_eq_true_iff.1 hp
      have he : ∃ e, cidrToVector t = .ret (.error e) := by
        unfold parseFails at hf
        split at hf
        · rename_i e he
          exact ⟨e, he⟩
        · cases hf
      obtain ⟨e, he⟩ := he
      have := cidr_err_shape t e he
      subst this
      simp only [collectTokens, hc, if_true, he]
    · have hpf : (t.data.contains '/' && parseFails t) = false := by
        cases hb : (t.data.contains '/' && parseFails t)
        · rfl
        · exact absurd hb hp
      rw [hpf] at hfind
      have hrest := ih hnprest hfind
      by_cases hc : t.data.contains '/' = true
      · have hnf : parseFails t = false := by
          cases hpf : parseFails t
          · rfl
          · refine absurd ?_ hp
            rw [hc, hpf]
            rfl
        have hv : ∃ v, cidrToVector t = .ret (.ok v) := by
          rcases hcv : cidrToVector t with a | _
          · rcases a with e | v
            · unfold parseFails at hnf
              rw [hcv] at hnf
              cases hnf
            · exact ⟨v, rfl⟩
          · exact absurd hcv (hnp t (List.mem_cons_self _ _) hc)
        obtain ⟨v, hv⟩ := hv
        simp only [collectTokens, hc, if_true, hv, hrest]
      · have hcf : t.data.contains '/' = false := by
          cases hb : t.data.contains '/'
          · rfl
          · exact absurd hb hc
        simp only [collectTokens, hcf, Bool.false_eq_true, if_false, hrest]

/-- Deleting index `j` and then an index `i < j` shortens a list by 2. -/
theorem length_erase_two (l : List IPv4Vector) (i j : Nat) (hij : i < j)
    (hjn : j < l.length) :
    ((l.eraseIdx j).eraseIdx i).length = l.length - 2 := by
  have e1 : (l.eraseIdx j).length = l.length - 1 := by
    rw [List.length_eraseIdx, if_pos hjn]
  rw [List.length_eraseIdx, e1, if_pos (by omega)]
  omega

/-- Parsed vectors have 32-bit fields. -/
theorem mem_parsed_bounds (ts : List String)
    (h : ∀ t ∈ ts, parseOk t = true) :
    ∀ v ∈ ts.map parsedOf, v.FirstIP < 4294967296 ∧ v.LastIP < 4294967296 := by
  intro v hv
  obtain ⟨t, ht, rfl⟩ := List.mem_map.1 hv
  have hok := h t ht
  unfold parseOk at hok
  split at hok
  · rename_i w hw
    have hpw : parsedOf t = w := by
      unfold parsedOf
      rw [hw]
    rw [hpw]
    obtain ⟨hb1, _, _, hb2⟩ := cidr_ok_shape t w hw
    exact ⟨hb1, hb2⟩
  · cases hok

/-- Reads through `vecAt` inherit element-wise 32-bit bounds (the Go zero
value is trivially bounded). -/
theorem vecAt_bounds (vs : List IPv4Vector)
    (h : ∀ v ∈ vs, v.FirstIP < 4294967296 ∧ v.LastIP < 4294967296) (i : Nat) :
    (vecAt vs i).FirstIP < 4294967296 ∧ (vecAt vs i).LastIP < 4294967296 := by
  unfold vecAt
  rw [List.getD_eq_getElem?_getD]
  rcases hg : vs[i]? with _ | v
  · exact ⟨by decide, by decide⟩
  · have hm : v ∈ vs := by
      have hlt : i < vs.length := by
        by_contra hc
        rw [List.getElem?_eq_none (by omega)] at hg
        cases hg
      rw [List.getElem?_eq_getElem hlt] at hg
      cases hg
      exact List.getElem_mem hlt
    simpa using h v hm

/-! ### The claims -/

/-- C1: for every merge of two address intervals A, B via the supernet
merger, the merge succeeds and the resulting closed range contains the
union of the two input ranges: `result.first ≤ min(A.first, B.first)` and
`result.last ≥ max(A.last, B.last)` (fields are 32-bit values as in Go). -/
theorem mergeIPNets_covers (v1 v2 : IPv4Vector)
    (h1 : v1.FirstIP < 4294967296) (h2 : v2.FirstIP < 4294967296)
    (h3 : v1.LastIP < 4294967296) (h4 : v2.LastIP < 4294967296) :
    ∃ out, mergeIPNets v1 v2 = .ret (.ok out) ∧
      out.FirstIP ≤ min v1.FirstIP v2.FirstIP ∧
      max v1.LastIP v2.LastIP ≤ out.LastIP := by
  refine ⟨_, mergeIPNets_eq v1 v2 h1 h2 h3 h4, Nat.le_refl _, ?_⟩
  exact le_merged_last (min v1.FirstIP v2.FirstIP) (max v1.LastIP v2.LastIP)
    (by omega) (by omega)

/-- C1 witness: merging 10.0.0.0/24 and 10.0.1.0/24 at concrete values. -/
theorem mergeIPNets_covers_witness :
    (167772160 : Nat) < 4294967296 ∧
    ∃ out, mergeIPNets ⟨167772160, 167772415, 24⟩
        ⟨167772416, 167772671, 24⟩ = .ret (.ok out) ∧
      out.FirstIP ≤ min (167772160 : Nat) 167772416 ∧
      max (167772415 : Nat) 167772671 ≤ out.LastIP :=
  ⟨by decide, mergeIPNets_covers ⟨167772160, 167772415, 24⟩
    ⟨167772416, 167772671, 24⟩ (by decide) (by decide) (by decide) (by decide)⟩

/-- C2 counterexample: parsing "10.0.0.5/24" keeps first = 10.0.0.5
(167772165), not the masked network address 167772160, so `first` is not
the parsed address AND the network mask and the created interval is not
CIDR-aligned. -/
theorem cidrToVector_unmasked_cex :
    cidrToVector "10.0.0.5/24" = .ret (.ok ⟨167772165, 167772415, 24⟩) ∧
    (167772165 : Nat) ≠ 167772165 &&& maskOfOnes 24 := by
  exact ⟨by rfl, by decide⟩

/-- C2 (amended): for every accepted CIDR token the stored `first` is the
parsed address itself (unmasked, 32 bits); `last` equals `first` with all
host bits of the 32-bit mask set to one, hence `first ≤ last`; the
interval is CIDR-aligned only when the address already had no host bits. -/
theorem cidrToVector_interval_shape (s : String) (v : IPv4Vector)
    (h : cidrToVector s = .ret (.ok v)) :
    v.FirstIP < 4294967296 ∧
    v.LastIP = v.FirstIP ||| (goMask32 v.maskOnes ^^^ 4294967295) ∧
    v.FirstIP ≤ v.LastIP := by
  obtain ⟨hf, hlast, hle, _⟩ := cidr_ok_shape s v h
  refine ⟨hf, ?_, hle⟩
  rw [hlast, show goMask32 v.maskOnes = maskOfOnes (min v.maskOnes 32) from rfl,
    and_mask_or_host _ _ hf (Nat.min_le_right _ _)]

/-- C2 witness: the amended shape at "10.0.0.5/24". -/
theorem cidrToVector_interval_shape_witness :
    cidrToVector "10.0.0.5/24" = .ret (.ok ⟨167772165, 167772415, 24⟩) ∧
    ((167772165 : Nat) < 4294967296 ∧
     (167772415 : Nat) = 167772165 ||| (goMask32 24 ^^^ 4294967295) ∧
     (167772165 : Nat) ≤ 167772415) :=
  ⟨by rfl, cidrToVector_interval_shape "10.0.0.5/24"
    ⟨167772165, 167772415, 24⟩ (by rfl)⟩

/-- C7 counterexample: for intervals at 0 and 2^31 both per-field
differences are 2^31; the exact sum is 2^32 but `distance` returns 0 (the
32-bit sum wraps), so the implementation does not return the exact sum. -/
theorem distance_not_exact_cex :
    distance ⟨0, 0, 32⟩ ⟨2147483648, 2147483648, 32⟩ = 0 ∧
    specDistance ⟨0, 0, 32⟩ ⟨2147483648, 2147483648, 32⟩ = 4294967296 ∧
    (0 : Nat) ≠ 4294967296 := by
  exact ⟨by decide, by decide, by decide⟩

/-- C7 (amended): `distance` returns the exact sum of the two per-field
unsigned differences reduced modulo 2^32: the per-field differences are
computed exactly (smaller subtracted from larger) and survive the
int32/float64 round-trip bit-for-bit, but the final uint32 addition
wraps. -/
theorem distance_wrapped_sum (v1 v2 : IPv4Vector)
    (h1 : v1.FirstIP < 4294967296) (h2 : v2.FirstIP < 4294967296)
    (h3 : v1.LastIP < 4294967296) (h4 : v2.LastIP < 4294967296) :
    distance v1 v2 =
      (specAbsDiff v1.FirstIP v2.FirstIP + specAbsDiff v1.LastIP v2.LastIP) %
        4294967296 := by
  simp only [distance, i32RoundTrip, specAbsDiff]
  split <;> split <;> omega

/-- C7 witness: the wrapped-sum form at the counterexample's vectors. -/
theorem distance_wrapped_sum_witness :
    (0 : Nat) < 4294967296 ∧
    distance ⟨0, 0, 32⟩ ⟨2147483648, 2147483648, 32⟩ =
      (specAbsDiff 0 2147483648 + specAbsDiff 0 2147483648) % 4294967296 :=
  ⟨by decide, distance_wrapped_sum ⟨0, 0, 32⟩ ⟨2147483648, 2147483648, 32⟩
    (by decide) (by decide) (by decide) (by decide)⟩

/-- C6 counterexample: in the collection {[0,0], [2^31,2^31], [1,1]} the
scan selects the pair (0, 2^31) — its wrapped distance is 0 — although the
exact distance of the pair (0, 1) is 2, far below the selected pair's
exact distance 2^32.  The selected pair does not minimise the exact
metric named by the claim. -/
theorem closestVectors_exactmin_cex :
    closestVectors [⟨0, 0, 32⟩, ⟨2147483648, 2147483648, 32⟩, ⟨1, 1, 32⟩] =
      .ok (⟨0, 0, 32⟩, ⟨2147483648, 2147483648, 32⟩, [⟨1, 1, 32⟩]) ∧
    specDistance ⟨0, 0, 32⟩ ⟨1, 1, 32⟩ <
      specDistance ⟨0, 0, 32⟩ ⟨2147483648, 2147483648, 32⟩ := by
  exact ⟨by rfl, by decide⟩

/-- C6 (amended): the selected pair minimises the implementation's
distance — the wrapped modulo-2^32 sum, not the exact sum — over every
unordered pair `i < j` of the collection, and it is the first pair in
iteration order attaining that minimum (every earlier pair is strictly
farther). -/
theorem closestVectors_min_impl (vs : List IPv4Vector)
    (c1 c2 : IPv4Vector) (rest : List IPv4Vector)
    (hres : closestVectors vs = .ok (c1, c2, rest)) :
    ∃ (k : Nat) (hk : k < (pairsList vs.length).length),
      c1 = vecAt vs ((pairsList vs.length)[k]).1 ∧
      c2 = vecAt vs ((pairsList vs.length)[k]).2 ∧
      ((pairsList vs.length)[k]).1 < ((pairsList vs.length)[k]).2 ∧
      ((pairsList vs.length)[k]).2 < vs.length ∧
      (∀ i j, i < j → j < vs.length →
        distance c1 c2 ≤ distance (vecAt vs i) (vecAt vs j)) ∧
      (∀ q ∈ (pairsList vs.length).take k,
        distance c1 c2 < pairDist vs q) := by
  have h2 : 2 ≤ vs.length := by
    by_contra hlt
    unfold closestVectors at hres
    rw [if_pos (by omega)] at hres
    cases hres
  obtain ⟨k, hk, hij, hjn, heq, hmin, htk⟩ := closestVectors_eq vs h2
  rw [heq] at hres
  cases hres
  refine ⟨k, hk, rfl, rfl, hij, hjn, ?_, ?_⟩
  · intro i j hij2 hjn2
    have hq : (i, j) ∈ pairsList vs.length :=
      (pairsList_mem _ _).2 ⟨hij2, hjn2⟩
    simpa [pairDist] using hmin (i, j) hq
  · intro q hq
    simpa [pairDist] using htk q hq

/-- C6 witness: the amended statement at a concrete two-vector scan. -/
theorem closestVectors_min_impl_witness :
    closestVectors [⟨0, 255, 24⟩, ⟨256, 511, 24⟩] =
      .ok (⟨0, 255, 24⟩, ⟨256, 511, 24⟩, []) ∧
    ∃ (k : Nat) (hk : k < (pairsList 2).length),
      (⟨0, 255, 24⟩ : IPv4Vector) =
        vecAt [⟨0, 255, 24⟩, ⟨256, 511, 24⟩] ((pairsList 2)[k]).1 ∧
      (⟨256, 511, 24⟩ : IPv4Vector) =
        vecAt [⟨0, 255, 24⟩, ⟨256, 511, 24⟩] ((pairsList 2)[k]).2 ∧
      ((pairsList 2)[k]).1 < ((pairsList 2)[k]).2 ∧
      ((pairsList 2)[k]).2 < 2 ∧
      (∀ i j, i < j → j < 2 →
        distance ⟨0, 255, 24⟩ ⟨256, 511, 24⟩ ≤
          distance (vecAt [⟨0, 255, 24⟩, ⟨256, 511, 24⟩] i)
            (vecAt [⟨0, 255, 24⟩, ⟨256, 511, 24⟩] j)) ∧
      (∀ q ∈ (pairsList 2).take k,
        distance ⟨0, 255, 24⟩ ⟨256, 511, 24⟩ <
          pairDist [⟨0, 255, 24⟩, ⟨256, 511, 24⟩] q) :=
  ⟨by rfl, closestVectors_min_impl [⟨0, 255, 24⟩, ⟨256, 511, 24⟩]
    ⟨0, 255, 24⟩ ⟨256, 511, 24⟩ [] (by rfl)⟩

/-- C4: with zero or one parseable CIDR tokens (every other token a
literal without a slash), the call returns the insufficient-vectors error
together with an empty output: no literal token is emitted. -/
theorem mergeCIDRs_arity_guard (input : List String) (m : Nat)
    (hok : ∀ t ∈ input, t.data.contains '/' = true → parseOk t = true)
    (hle : (input.filter (fun t => t.data.contains '/')).length ≤ 1) :
    MergeCIDRs input m = .ret ([], some .insufficientVectors) := by
  have hcv : closestVectors
      ((input.filter (fun t => t.data.contains '/')).map parsedOf) =
      .error .insufficientVectors := by
    unfold closestVectors
    rw [if_pos (by rw [List.length_map]; omega)]
  simp only [MergeCIDRs, collectTokens_ok input hok, hcv]

/-- C4 witness: one literal and one valid CIDR token. -/
theorem mergeCIDRs_arity_guard_witness :
    (∀ t ∈ (["foo", "1.2.3.4/8"] : List String),
      t.data.contains '/' = true → parseOk t = true) ∧
    MergeCIDRs ["foo", "1.2.3.4/8"] 0 =
      .ret ([], some .insufficientVectors) :=
  ⟨by decide, mergeCIDRs_arity_guard ["foo", "1.2.3.4/8"] 0 (by decide)
    (by decide)⟩

/-- C5 counterexample: the input contains "10.0.0.0/33", a slash-bearing
token that fails to parse, yet the call panics on the earlier token
"::1/128" (accepted by `ParseCIDR` but not IPv4-convertible) instead of
returning the parse error with an empty output. -/
theorem mergeCIDRs_panic_preempts_cex :
    parseFails "10.0.0.0/33" = true ∧
    MergeCIDRs ["::1/128", "10.0.0.0/33"] 0 = .panic ∧
    MergeCIDRs ["::1/128", "10.0.0.0/33"] 0 ≠
      .ret ([], some (.parseError "10.0.0.0/33")) := by
  exact ⟨by rfl, by rfl, by decide⟩

/-- C5 (amended): provided no CIDR-looking token drives the parser into
the IPv6 panic, the first CIDR-looking token that fails to parse aborts
the whole call: its parse error is returned with an empty output,
discarding any literal tokens already encountered. -/
theorem mergeCIDRs_first_parse_error (input : List String) (m : Nat)
    (t0 : String)
    (hnp : ∀ t ∈ input, t.data.contains '/' = true → cidrToVector t ≠ .panic)
    (hfind : input.find? (fun t => t.data.contains '/' && parseFails t) =
      some t0) :
    MergeCIDRs input m = .ret ([], some (.parseError t0)) := by
  simp only [MergeCIDRs, collectTokens_first_err input t0 hnp hfind]

/-- C5 witness: a literal followed by an invalid prefix length. -/
theorem mergeCIDRs_first_parse_error_witness :
    (["lit", "10.0.0.0/33"] : List String).find?
      (fun t => t.data.contains '/' && parseFails t) = some "10.0.0.0/33" ∧
    MergeCIDRs ["lit", "10.0.0.0/33"] 0 =
      .ret ([], some (.parseError "10.0.0.0/33")) :=
  ⟨by rfl, mergeCIDRs_first_parse_error ["lit", "10.0.0.0/33"] 0
    "10.0.0.0/33" (by decide) (by rfl)⟩

/-- C3 counterexample: "10.0.0.0/024" parses (Go's `dtoi` accepts leading
zeros in the prefix length) and is not selected for the merge, but the
output re-renders it canonically as "10.0.0.0/24": the unselected
interval's token is not reproduced unchanged. -/
theorem mergeCIDRs_rerender_cex :
    (∀ t ∈ (["1.0.0.0/8", "2.0.0.0/8", "10.0.0.0/024"] : List String),
      t.data.contains '/' = true → parseOk t = true) ∧
    MergeCIDRs ["1.0.0.0/8", "2.0.0.0/8", "10.0.0.0/024"] 0 =
      .ret (["10.0.0.0/24", "1.0.0.0/6"], none) ∧
    "10.0.0.0/024" ∉ (["10.0.0.0/24", "1.0.0.0/6"] : List String) := by
  exact ⟨by decide, by rfl, by decide⟩

/-- C3 (amended): when every slash-bearing token parses and at least two
do, the call succeeds and its output is exactly: the tokens lacking a
slash copied verbatim in their original relative order, followed by the
n−2 intervals not selected for merging re-rendered canonically (dotted
quad of `first`, slash, stored prefix length — equal to the original
token only when that token was canonical) in their original relative
order, and the single merged interval last; only one pairwise merge is
performed regardless of input size. -/
theorem mergeCIDRs_output_shape (input : List String) (m : Nat)
    (hok : ∀ t ∈ input, t.data.contains '/' = true → parseOk t = true)
    (h2 : 2 ≤ (input.filter (fun t => t.data.contains '/')).length) :
    ∃ c1 c2 rest merged,
      closestVectors
        ((input.filter (fun t => t.data.contains '/')).map parsedOf) =
        .ok (c1, c2, rest) ∧
      mergeIPNets c1 c2 = .ret (.ok merged) ∧
      rest.length = (input.filter (fun t => t.data.contains '/')).length - 2 ∧
      MergeCIDRs input m = .ret
        (input.filter (fun t => !(t.data.contains '/')) ++
          rest.map renderVector ++ [renderVector merged], none) := by
  have hokf : ∀ t ∈ input.filter (fun t => t.data.contains '/'),
      parseOk t = true := by
    intro t ht
    have hmf := List.mem_filter.1 ht
    exact hok t hmf.1 hmf.2
  have hbnd := mem_parsed_bounds _ hokf
  have h2m : 2 ≤
      ((input.filter (fun t => t.data.contains '/')).map parsedOf).length := by
    rw [List.length_map]
    exact h2
  obtain ⟨k, hk, hij, hjn, heq, hmin, htk⟩ := closestVectors_eq _ h2m
  have hb1 := vecAt_bounds _ hbnd
    ((pairsList ((input.filter (fun t => t.data.contains '/')).map
      parsedOf).length)[k]).1
  have hb2 := vecAt_bounds _ hbnd
    ((pairsList ((input.filter (fun t => t.data.contains '/')).map
      parsedOf).length)[k]).2
  have hmerge := mergeIPNets_eq _ _ hb1.1 hb2.1 hb1.2 hb2.2
  refine ⟨_, _, _, _, heq, hmerge, ?_, ?_⟩
  · rw [length_erase_two _ _ _ hij hjn, List.length_map]
  · simp only [MergeCIDRs, collectTokens_ok input hok, heq, hmerge,
      List.map_append, List.map_cons, List.map_nil, List.append_assoc]

/-- C3 witness: one literal and two /24 blocks. -/
theorem mergeCIDRs_output_shape_witness :
    (2 : Nat) ≤ ((["x", "10.0.0.0/24", "10.0.1.0/24"] : List String).filter
      (fun t => t.data.contains '/')).length ∧
    ∃ c1 c2 rest merged,
      closestVectors
        (((["x", "10.0.0.0/24", "10.0.1.0/24"] : List String).filter
          (fun t => t.data.contains '/')).map parsedOf) =
        .ok (c1, c2, rest) ∧
      mergeIPNets c1 c2 = .ret (.ok merged) ∧
      rest.length = ((["x", "10.0.0.0/24", "10.0.1.0/24"] : List String).filter
        (fun t => t.data.contains '/')).length - 2 ∧
      MergeCIDRs ["x", "10.0.0.0/24", "10.0.1.0/24"] 0 = .ret
        ((["x", "10.0.0.0/24", "10.0.1.0/24"] : List String).filter
          (fun t => !(t.data.contains '/')) ++
          rest.map renderVector ++ [renderVector merged], none) :=
  ⟨by decide, mergeCIDRs_output_shape ["x", "10.0.0.0/24", "10.0.1.0/24"] 0
    (by decide) (by decide)⟩

/-- C8 counterexample: "10.0.0.0/024" is accepted by the parser, its
address is aligned to the prefix boundary (no host bits set), yet parsing
then rendering yields "10.0.0.0/24" ≠ "10.0.0.0/024". -/
theorem roundtrip_noncanonical_cex :
    cidrToVector "10.0.0.0/024" = .ret (.ok ⟨167772160, 167772415, 24⟩) ∧
    (167772160 : Nat) &&& (maskOfOnes 24 ^^^ 4294967295) = 0 ∧
    renderVector ⟨167772160, 167772415, 24⟩ = "10.0.0.0/24" ∧
    ("10.0.0.0/24" : String) ≠ "10.0.0.0/024" := by
  exact ⟨by rfl, by decide, by rfl, by decide⟩

/-- C8 (amended): for every CIDR string in canonical form — the address
rendered as by `uint32ToIP` and the prefix length in plain decimal —
whose address is aligned to the prefix boundary, parsing and then
rendering the stored interval returns the string unchanged. -/
theorem roundtrip_canonical (a n : Nat) (ha : a < 4294967296) (hn : n ≤ 32)
    (halign : a &&& (maskOfOnes n ^^^ 4294967295) = 0) :
    ∃ v, cidrToVector (uint32ToIP a ++ "/" ++ Nat.repr n) = .ret (.ok v) ∧
      renderVector v = uint32ToIP a ++ "/" ++ Nat.repr n := by
  exact ⟨_, cidrToVector_render a n ha hn, rfl⟩

/-- C8 witness: round-trip at 10.0.0.0/24. -/
theorem roundtrip_canonical_witness :
    (167772160 : Nat) &&& (maskOfOnes 24 ^^^ 4294967295) = 0 ∧
    ∃ v, cidrToVector (uint32ToIP 167772160 ++ "/" ++ Nat.repr 24) =
        .ret (.ok v) ∧
      renderVector v = uint32ToIP 167772160 ++ "/" ++ Nat.repr 24 :=
  ⟨by decide, roundtrip_canonical 167772160 24 (by decide) (by decide)
    (by decide)⟩

/-- C9: the `maxIpNum` parameter is accepted and never consulted: for any
input and any two parameter values the results coincide exactly. -/
theorem mergeCIDRs_maxIpNum_inert (input : List String) (m1 m2 : Nat) :
    MergeCIDRs input m1 = MergeCIDRs input m2 := rfl

/-- C10: the token "::1/128" contains a slash and is accepted by the
modelled `net.ParseCIDR` as an IPv6 address that `To4` cannot convert
(`To4` returns nil), whereupon `cidrToVector` — and hence `MergeCIDRs` —
panics (`binary.BigEndian.Uint32` on a nil slice) instead of returning a
parse error or any other error to the caller. -/
theorem mergeCIDRs_ipv6_panic :
    ("::1/128" : String).data.contains '/' = true ∧
    goParseCIDR "::1/128" =
      some (.v6 [0, 0, 0, 0, 0, 0, 0, 0, 0, 0, 0, 0, 0, 0, 0, 1],
        128, 128) ∧
    to4 (.v6 [0, 0, 0, 0, 0, 0, 0, 0, 0, 0, 0, 0, 0, 0, 0, 1]) = none ∧
    cidrToVector "::1/128" = .panic ∧
    MergeCIDRs ["::1/128"] 0 = .panic := by
  exact ⟨by rfl, by rfl, by rfl, by rfl, by rfl⟩

end Netmerge
